import Mathlib

/-!
Verification of the subtitle-comparison application (`src/main.py`) and its
normalization/alignment/span-projection engine.

The session layer (`current_files`, `load_file_from_path`,
`load_file_from_content`, `load_file`, `compare_files`,
`update_file_content`, `compare_with_normalization`) is embedded directly
from `src/main.py`, with the process-global `current_files` dictionary made
an explicit `Session` value threaded through every operation, and the
fallible collaborators (`read_file`, the Word-document parser, the byte
decoders) passed in as explicit outcomes, mirroring the `try/except`
structure of the Python code.

The engine itself (`app/file_handler.normalize_text`,
`app/text_compare.compare_texts` / `compare_normalized_texts`) is not part
of the sources; those operations are modelled from the specification
(sections 4.1-4.4), as noted on each definition.
-/

namespace Subtitle

/-- Status tag of a projected span: spec section 3, `Same` or `Changed`. -/
inductive Status where
  | same : Status
  | changed : Status
deriving DecidableEq, Repr

/-- A projected span: a status tag plus the literal substring of the raw
text it covers (spec section 3). -/
structure Span where
  status : Status
  text : List Char
deriving DecidableEq, Repr

/-- Edit operations over half-open offset ranges, spec section 3:
`Delete` carries an A-range only, `Insert` a B-range only,
`Equal`/`Replace` both.  A range is a pair (lo, hi). -/
inductive EditOp where
  | equal : Nat × Nat → Nat × Nat → EditOp
  | delete : Nat × Nat → EditOp
  | insert : Nat × Nat → EditOp
  | replace : Nat × Nat → Nat × Nat → EditOp
deriving DecidableEq, Repr

/-- Unit-level edit produced by the aligner before runs are grouped into
`EditOp`s: keep a common unit, delete from side A, or insert from side B. -/
inductive Edit where
  | keep : Char → Edit
  | del : Char → Edit
  | ins : Char → Edit
deriving DecidableEq, Repr

/-- Modelled from the spec: `app/file_handler.normalize_text` is not under
`src/`.  Spec section 4.1: a character is dropped iff it is punctuation,
whitespace (including the ideographic space), or a line terminator.  The
classifier covers ASCII whitespace and punctuation and the common CJK
punctuation, by code point. -/
def isStripped (c : Char) : Bool :=
  let n := c.toNat
  n == 32 || n == 9 || n == 10 || n == 13 ||
  (Nat.ble 33 n && Nat.ble n 47) ||
  (Nat.ble 58 n && Nat.ble n 64) ||
  (Nat.ble 91 n && Nat.ble n 96) ||
  (Nat.ble 123 n && Nat.ble n 126) ||
  n == 0x3000 || n == 0x3001 || n == 0x3002 || n == 0x300a || n == 0x300b ||
  n == 0x3010 || n == 0x3011 ||
  n == 0xff01 || n == 0xff08 || n == 0xff09 || n == 0xff0c || n == 0xff1a ||
  n == 0xff1b || n == 0xff1f ||
  n == 0x2018 || n == 0x2019 || n == 0x201c || n == 0x201d ||
  n == 0x2026 || n == 0x2014 || n == 0x00b7

/-- Modelled from the spec: `app/file_handler.normalize_text` is not under
`src/`.  Spec section 4.1: all non-stripped characters are kept verbatim
and in original order. -/
def normalize_text (l : List Char) : List Char :=
  l.filter fun c => !isStripped c

/-- Position map of the normalization of `l`, with raw indices starting at
`i`: one raw-text index per kept character (spec section 3). -/
def posMapFrom (i : Nat) : List Char → List Nat
  | [] => []
  | c :: cs => if isStripped c then posMapFrom (i + 1) cs else i :: posMapFrom (i + 1) cs

/-- Modelled from the spec: the PositionMap produced by the Normalizer
(spec sections 3 and 4.1), entry `i` being the raw index of the character
that produced normalized character `i`. -/
def posMap (l : List Char) : List Nat :=
  posMapFrom 0 l

/-- Modelled from the spec: normalizer contract of section 4.1,
`normalize(raw) -> (NormalizedText, PositionMap)`. -/
def normalize (l : List Char) : List Char × List Nat :=
  (normalize_text l, posMap l)

/-- Length of a longest common subsequence, with explicit fuel (every
recursive call shrinks the combined length, so fuel equal to the combined
length suffices); the fuel keeps the recursion structural. -/
def lcsLenF : Nat → List Char → List Char → Nat
  | 0, _, _ => 0
  | _ + 1, [], _ => 0
  | _ + 1, _ :: _, [] => 0
  | f + 1, x :: xs, y :: ys =>
    if x = y then lcsLenF f xs ys + 1
    else max (lcsLenF f xs (y :: ys)) (lcsLenF f (x :: xs) ys)

/-- Length of a longest common subsequence of two character sequences. -/
def lcsLen (a b : List Char) : Nat :=
  lcsLenF (a.length + b.length) a b

/-- Unit-level LCS edit script, with the same explicit fuel as `lcsLenF`. -/
def diffCharsF : Nat → List Char → List Char → List Edit
  | 0, _, _ => []
  | _ + 1, [], bs => bs.map .ins
  | _ + 1, x :: xs, [] => (x :: xs).map .del
  | f + 1, x :: xs, y :: ys =>
    if x = y then .keep x :: diffCharsF f xs ys
    else if lcsLen (x :: xs) ys ≤ lcsLen xs (y :: ys)
      then .del x :: diffCharsF f xs (y :: ys)
      else .ins y :: diffCharsF f (x :: xs) ys

/-- Modelled from the spec: the Aligner of section 4.2 is not under
`src/`.  LCS-based minimal edit script with a deterministic greedy
tie-break (on a tie the A-side unit is deleted first), produced at the
level of single units. -/
def diffChars (a b : List Char) : List Edit :=
  diffCharsF (a.length + b.length) a b

/-- Group the unit-level edit script into offset-ranged `EditOp`s,
starting at offsets `ia` (side A) and `ib` (side B): maximal `Equal` runs,
and adjacent delete/insert runs merged into a single `Replace`
(spec section 4.2). -/
def buildOps : List Edit → Nat → Nat → List EditOp
  | [], _, _ => []
  | .keep _ :: es, ia, ib =>
    match buildOps es (ia + 1) (ib + 1) with
    | .equal ra rb :: rest => .equal (ia, ra.2) (ib, rb.2) :: rest
    | ops => .equal (ia, ia + 1) (ib, ib + 1) :: ops
  | .del _ :: es, ia, ib =>
    match buildOps es (ia + 1) ib with
    | .delete ra :: rest => .delete (ia, ra.2) :: rest
    | .insert rb :: rest => .replace (ia, ia + 1) rb :: rest
    | .replace ra rb :: rest => .replace (ia, ra.2) rb :: rest
    | ops => .delete (ia, ia + 1) :: ops
  | .ins _ :: es, ia, ib =>
    match buildOps es ia (ib + 1) with
    | .insert rb :: rest => .insert (ib, rb.2) :: rest
    | .delete ra :: rest => .replace ra (ib, ib + 1) :: rest
    | .replace ra rb :: rest => .replace ra (ib, rb.2) :: rest
    | ops => .insert (ib, ib + 1) :: ops

/-- Modelled from the spec: aligner contract of section 4.2,
`align(a, b) -> ordered sequence of EditOp`. -/
def align (a b : List Char) : List EditOp :=
  buildOps (diffChars a b) 0 0

/-- The two sides of a comparison. -/
inductive Side where
  | A : Side
  | B : Side
deriving DecidableEq, Repr

/-- Start offset, in normalized coordinates, of the range an op carries on
the given side; `none` when the op does not touch that side
(spec section 4.3: such an op contributes no span on that side). -/
def opStartIdx : Side → EditOp → Option Nat
  | .A, .equal ra _ => some ra.1
  | .A, .delete ra => some ra.1
  | .A, .insert _ => none
  | .A, .replace ra _ => some ra.1
  | .B, .equal _ rb => some rb.1
  | .B, .delete _ => none
  | .B, .insert rb => some rb.1
  | .B, .replace _ rb => some rb.1

/-- Status mapping of spec section 4.3: `Equal` becomes `Same`, every other
op becomes `Changed` on the sides it touches. -/
def opStatus : EditOp → Status
  | .equal _ _ => .same
  | _ => .changed

/-- For one side, the ordered list of (status, normalized start offset) of
the ops that touch that side. -/
def sideStarts (side : Side) (ops : List EditOp) : List (Status × Nat) :=
  ops.filterMap fun op => (opStartIdx side op).map fun i => (opStatus op, i)

/-- Raw-text offset of normalized offset `i`: `posMap[i]` when in bounds,
else the end of the raw text (spec section 4.3). -/
def projIdx (pm : List Nat) (rlen : Nat) (i : Nat) : Nat :=
  pm.getD i rlen

/-- Cut the raw text at the given start offsets: each segment extends
forward to (but excludes) the next segment's start offset, and the final
segment extends to the end of the raw text (the boundary-extension rule of
spec section 4.3). -/
def segment (raw : List Char) : List (Status × Nat) → List Span
  | [] => []
  | (st, s) :: rest =>
    match rest with
    | [] => [⟨st, raw.drop s⟩]
    | (_, t) :: _ => ⟨st, (raw.drop s).take (t - s)⟩ :: segment raw rest

/-- Projected spans of one side: the side's op start offsets, translated to
raw offsets through the side's position map, then cut out of the raw text. -/
def sideSpans (side : Side) (ops : List EditOp) (pm : List Nat) (raw : List Char) : List Span :=
  segment raw ((sideStarts side ops).map fun p => (p.1, projIdx pm raw.length p.2))

/-- Modelled from the spec: SpanProjector contract of section 4.3,
`project(ops, posMapA, posMapB, rawA, rawB) -> (spansA, spansB)`. -/
def project (ops : List EditOp) (pmA pmB : List Nat) (rawA rawB : List Char) :
    List Span × List Span :=
  (sideSpans .A ops pmA rawA, sideSpans .B ops pmB rawB)

/-- Concatenation of the texts of a list of spans, in order. -/
def concatTexts : List Span → List Char
  | [] => []
  | sp :: rest => sp.text ++ concatTexts rest

/-- The mirror image of an op under swapping the two inputs of `align`:
`Insert` and `Delete` swap roles and the two ranges of `Equal`/`Replace`
swap sides (spec section 8, mirror symmetry). -/
def mirrorOp : EditOp → EditOp
  | .equal ra rb => .equal rb ra
  | .delete ra => .insert ra
  | .insert rb => .delete rb
  | .replace ra rb => .replace rb ra

/-- Number of kept units in a unit-level edit script. -/
def keepCount : List Edit → Nat
  | [] => 0
  | .keep _ :: es => keepCount es + 1
  | .del _ :: es => keepCount es
  | .ins _ :: es => keepCount es

/-- Number of deleted units in a unit-level edit script. -/
def delCount : List Edit → Nat
  | [] => 0
  | .keep _ :: es => delCount es
  | .del _ :: es => delCount es + 1
  | .ins _ :: es => delCount es

/-- Number of inserted units in a unit-level edit script. -/
def insCount : List Edit → Nat
  | [] => 0
  | .keep _ :: es => insCount es
  | .del _ :: es => insCount es
  | .ins _ :: es => insCount es + 1

/-- Number of units a script consumes on side A (kept plus deleted). -/
def aUnits (es : List Edit) : Nat :=
  keepCount es + delCount es

/-- Number of units a script consumes on side B (kept plus inserted). -/
def bUnits (es : List Edit) : Nat :=
  keepCount es + insCount es

/-- Modelled from the spec: `app/text_compare.compare_texts` is not under
`src/`.  Per section 4.4 the normalized-compare mode aligns the two texts
it is given and produces two index-aligned span lists; as both inputs are
already the texts being compared, the position maps are the identity. -/
def compare_texts (t1 t2 : List Char) : List Span × List Span :=
  project (align t1 t2) (List.range t1.length) (List.range t2.length) t1 t2

/-- Modelled from the spec: `app/text_compare.compare_normalized_texts` is
not under `src/`.  Per sections 2 and 4.3 it aligns the two normalized
texts and projects the alignment back onto the originals through their
position maps. -/
def compare_normalized_texts (o1 n1 o2 n2 : List Char) : List Span × List Span :=
  project (align n1 n2) (posMap o1) (posMap o2) o1 o2

/-- The full engine pipeline on two raw documents: normalize each side,
align the normalized texts, project back onto the raw texts. -/
def compareNormalized (rawA rawB : List Char) : List Span × List Span :=
  compare_normalized_texts rawA (normalize_text rawA) rawB (normalize_text rawB)

/-- One slot of the session state: `src/main.py` lines 22-33, the
`current_files` entries with keys `path`, `original`, `normalized`. -/
structure FileEntry where
  path : Option String
  original : List Char
  normalized : List Char
deriving DecidableEq, Repr

/-- The shared session state of `src/main.py` (`current_files`), made an
explicit value: one entry per file slot. -/
structure Session where
  file1 : FileEntry
  file2 : FileEntry
deriving DecidableEq, Repr

/-- Initial value of `current_files` (`src/main.py` lines 22-33). -/
def current_files : Session :=
  ⟨⟨none, [], []⟩, ⟨none, [], []⟩⟩

/-- Result dictionary of the load operations (`src/main.py`): `success`,
and on success the texts and file name, on failure the error strings. -/
structure LoadResult where
  success : Bool
  original_text : List Char := []
  normalized_text : List Char := []
  file_name : String := ""
  error : Option String := none
  message : String
deriving DecidableEq, Repr

/-- Result dictionary of `update_file_content`. -/
structure UpdateResult where
  success : Bool
  error : Option String := none
  message : String
deriving DecidableEq, Repr

/-- Result dictionary of the compare operations (`src/main.py`):
`success`, the two diff lists, and the auxiliary strings. -/
structure CompareResult where
  success : Bool
  diffs1 : List Span := []
  diffs2 : List Span := []
  error : Option String := none
  message : String
  normalized1 : List Char := []
  normalized2 : List Char := []
deriving DecidableEq, Repr

/-- Outcome of the collaborator `app.file_handler.read_file` (not under
`src/`): either the decoded original text with its normalization, or the
message of the exception it raised. -/
inductive ReadOutcome where
  | ok : List Char → List Char → ReadOutcome
  | err : String → ReadOutcome
deriving DecidableEq, Repr

/-- Message of the Python `KeyError` raised by `current_files[file_key]`
for an index other than 1 or 2. -/
def keyErrMsg (i : Nat) : String :=
  "\x27file" ++ toString i ++ "\x27"

/-- Store a file entry under index `i`, `none` for an index with no slot
(the Python `KeyError` case). -/
def setFile (s : Session) (i : Nat) (e : FileEntry) : Option Session :=
  if i = 1 then some { s with file1 := e }
  else if i = 2 then some { s with file2 := e }
  else none

/-- `os.path.basename`: the part of the path after the last slash. -/
def basename (p : String) : String :=
  String.mk (p.data.foldl (fun acc c => if c = '/' then [] else acc ++ [c]) [])

/-- `load_file_from_path` (`src/main.py` lines 104-138): on a successful
read, store path/original/normalized in the selected slot and report
success; when `read_file` raises, report the failure without touching the
session. -/
def load_file_from_path (readResult : ReadOutcome) (file_path : String)
    (file_index : Nat) (s : Session) : LoadResult × Session :=
  match readResult with
  | .ok original normalized =>
    match setFile s file_index ⟨some file_path, original, normalized⟩ with
    | some s2 =>
      (⟨true, original, normalized, basename file_path, none, "文件加载成功"⟩, s2)
    | none =>
      (⟨false, [], [], "", some (keyErrMsg file_index),
        "加载文件失败: " ++ keyErrMsg file_index⟩, s)
  | .err e => (⟨false, [], [], "", some e, "加载文件失败: " ++ e⟩, s)

/-- `load_file` (`src/main.py` lines 218-223): kept for backward
compatibility, delegates to `load_file_from_path`. -/
def load_file (readResult : ReadOutcome) (file_path : String)
    (file_index : Nat) (s : Session) : LoadResult × Session :=
  load_file_from_path readResult file_path file_index s

/-- Python `str.lower` on one character, for the ASCII range used by file
extensions. -/
def lowerChar (c : Char) : Char :=
  if 65 ≤ c.toNat ∧ c.toNat ≤ 90 then Char.ofNat (c.toNat + 32) else c

/-- Python `str.lower`, as applied to the file extension. -/
def pyLower (s : String) : String :=
  String.mk (s.data.map lowerChar)

/-- Python `bytes.decode("latin-1", errors="ignore")`: each byte maps to
the code point of the same value, and no byte can fail. -/
def decodeLatin1 (bs : List Nat) : List Char :=
  bs.map fun b => Char.ofNat (b % 256)

/-- `load_file_from_content` (`src/main.py` lines 141-214) on byte
content.  The UTF-8 and GBK decoders and the Word-document extractor are
collaborators passed in explicitly (`none` / `.error` for the exceptions
they raise); the `.txt` branch falls back from UTF-8 to GBK to Latin-1,
the `.docx` branch uses the extractor, and any other extension raises
`ValueError`, caught by the surrounding handler which reports failure and
leaves the session untouched. -/
def load_file_from_content (utf8dec gbkdec : List Nat → Option (List Char))
    (docxResult : Except String (List Char)) (file_name : String)
    (file_content : List Nat) (file_extension : String) (file_index : Nat)
    (s : Session) : LoadResult × Session :=
  if pyLower file_extension = ".txt" then
    let original :=
      match utf8dec file_content with
      | some t => t
      | none =>
        match gbkdec file_content with
        | some t => t
        | none => decodeLatin1 file_content
    let normalized := normalize_text original
    match setFile s file_index ⟨some file_name, original, normalized⟩ with
    | some s2 => (⟨true, original, normalized, file_name, none, "文件加载成功"⟩, s2)
    | none =>
      (⟨false, [], [], "", some (keyErrMsg file_index),
        "加载文件失败: " ++ keyErrMsg file_index⟩, s)
  else if pyLower file_extension = ".docx" then
    match docxResult with
    | .ok original =>
      let normalized := normalize_text original
      match setFile s file_index ⟨some file_name, original, normalized⟩ with
      | some s2 => (⟨true, original, normalized, file_name, none, "文件加载成功"⟩, s2)
      | none =>
        (⟨false, [], [], "", some (keyErrMsg file_index),
          "加载文件失败: " ++ keyErrMsg file_index⟩, s)
    | .error e => (⟨false, [], [], "", some e, "加载文件失败: " ++ e⟩, s)
  else
    (⟨false, [], [], "",
      some ("不支持的文件格式: " ++ file_extension),
      "加载文件失败: " ++ "不支持的文件格式: " ++ file_extension⟩, s)

/-- `compare_files` (`src/main.py` lines 226-276): failure when both
stored normalized texts are empty, empty diffs when exactly one is empty,
otherwise the diff of the two stored normalized texts. -/
def compare_files (s : Session) : CompareResult :=
  let f1 := s.file1.normalized
  let f2 := s.file2.normalized
  if f1 = [] ∧ f2 = [] then
    ⟨false, [], [], some "请先加载两个文件", "需要加载两个文件才能进行比对", [], []⟩
  else if f1 = [] ∨ f2 = [] then
    ⟨true, [], [], none, "需要加载两个文件才能进行比对", [], []⟩
  else
    let d := compare_texts f1 f2
    ⟨true, d.1, d.2, none, "比对完成（已忽略标点、空格、换行）", [], []⟩

/-- `update_file_content` (`src/main.py` lines 279-307): overwrite the
`normalized` field of the selected slot; an index with no slot raises
`KeyError`, caught and reported as failure. -/
def update_file_content (file_index : Nat) (new_content : List Char)
    (s : Session) : UpdateResult × Session :=
  if file_index = 1 then
    (⟨true, none, "内容已更新"⟩, { s with file1 := { s.file1 with normalized := new_content } })
  else if file_index = 2 then
    (⟨true, none, "内容已更新"⟩, { s with file2 := { s.file2 with normalized := new_content } })
  else
    (⟨false, some (keyErrMsg file_index), "更新失败: " ++ keyErrMsg file_index⟩, s)

/-- `compare_with_normalization` (`src/main.py` lines 338-384): guards on
the stored original texts, then compares through
`compare_normalized_texts`. -/
def compare_with_normalization (s : Session) : CompareResult :=
  let o1 := s.file1.original
  let o2 := s.file2.original
  if o1 = [] ∧ o2 = [] then
    ⟨false, [], [], some "请先加载两个文件", "需要加载两个文件才能进行比对", [], []⟩
  else if o1 = [] ∨ o2 = [] then
    ⟨true, [], [], none, "需要加载两个文件才能进行比对", [], []⟩
  else
    let d := compare_normalized_texts o1 s.file1.normalized o2 s.file2.normalized
    ⟨true, d.1, d.2, none, "比对完成", s.file1.normalized, s.file2.normalized⟩

/-! Fuel adequacy: `lcsLenF` and `diffCharsF` do not depend on the fuel
once it is at least the combined length of the two inputs. -/

theorem lcsLenF_fuel (f : Nat) : ∀ (g : Nat) (a b : List Char),
    a.length + b.length ≤ f → a.length + b.length ≤ g →
    lcsLenF f a b = lcsLenF g a b := by
  induction f with
  | zero =>
    intro g a b h1 _
    cases a with
    | nil =>
      cases b with
      | nil => cases g <;> rfl
      | cons y ys => simp at h1
    | cons x xs => simp at h1
  | succ f ih =>
    intro g a b h1 h2
    cases a with
    | nil =>
      cases b with
      | nil => cases g <;> rfl
      | cons y ys =>
        cases g with
        | zero => simp at h2
        | succ g => rfl
    | cons x xs =>
      cases b with
      | nil =>
        cases g with
        | zero => simp at h2
        | succ g => rfl
      | cons y ys =>
        cases g with
        | zero => simp at h2
        | succ g =>
          simp only [List.length_cons] at h1 h2
          simp only [lcsLenF]
          rw [ih g xs ys (by omega) (by omega),
              ih g xs (y :: ys) (by simp; omega) (by simp; omega),
              ih g (x :: xs) ys (by simp; omega) (by simp; omega)]

theorem lcsLenF_eq (f : Nat) (a b : List Char) (h : a.length + b.length ≤ f) :
    lcsLenF f a b = lcsLen a b :=
  lcsLenF_fuel f (a.length + b.length) a b h le_rfl

theorem lcsLen_nil_left (b : List Char) : lcsLen [] b = 0 := by
  cases b <;> rfl

theorem lcsLen_nil_right (a : List Char) : lcsLen a [] = 0 := by
  cases a <;> rfl

theorem lcsLen_cons (x y : Char) (xs ys : List Char) :
    lcsLen (x :: xs) (y :: ys) =
      if x = y then lcsLen xs ys + 1
      else max (lcsLen xs (y :: ys)) (lcsLen (x :: xs) ys) := by
  have h : (x :: xs).length + (y :: ys).length = (xs.length + ys.length + 1) + 1 := by
    simp; omega
  rw [lcsLen, h]
  simp only [lcsLenF]
  rw [lcsLenF_eq _ _ _ (by omega),
      lcsLenF_eq _ _ _ (by simp; omega),
      lcsLenF_eq _ _ _ (by simp; omega)]

theorem diffCharsF_fuel (f : Nat) : ∀ (g : Nat) (a b : List Char),
    a.length + b.length ≤ f → a.length + b.length ≤ g →
    diffCharsF f a b = diffCharsF g a b := by
  induction f with
  | zero =>
    intro g a b h1 _
    cases a with
    | nil =>
      cases b with
      | nil => cases g <;> rfl
      | cons y ys => simp at h1
    | cons x xs => simp at h1
  | succ f ih =>
    intro g a b h1 h2
    cases a with
    | nil =>
      cases b with
      | nil => cases g <;> rfl
      | cons y ys =>
        cases g with
        | zero => simp at h2
        | succ g => rfl
    | cons x xs =>
      cases b with
      | nil =>
        cases g with
        | zero => simp at h2
        | succ g => rfl
      | cons y ys =>
        cases g with
        | zero => simp at h2
        | succ g =>
          simp only [List.length_cons] at h1 h2
          simp only [diffCharsF]
          rw [ih g xs ys (by omega) (by omega),
              ih g xs (y :: ys) (by simp; omega) (by simp; omega),
              ih g (x :: xs) ys (by simp; omega) (by simp; omega)]

theorem diffCharsF_eq (f : Nat) (a b : List Char) (h : a.length + b.length ≤ f) :
    diffCharsF f a b = diffChars a b :=
  diffCharsF_fuel f (a.length + b.length) a b h le_rfl

theorem diffChars_nil_left (b : List Char) : diffChars [] b = b.map .ins := by
  cases b <;> rfl

theorem diffChars_nil_right (x : Char) (xs : List Char) :
    diffChars (x :: xs) [] = (x :: xs).map .del := rfl

theorem diffChars_cons (x y : Char) (xs ys : List Char) :
    diffChars (x :: xs) (y :: ys) =
      if x = y then .keep x :: diffChars xs ys
      else if lcsLen (x :: xs) ys ≤ lcsLen xs (y :: ys)
        then .del x :: diffChars xs (y :: ys)
        else .ins y :: diffChars (x :: xs) ys := by
  have h : (x :: xs).length + (y :: ys).length = (xs.length + ys.length + 1) + 1 := by
    simp; omega
  rw [diffChars, h]
  simp only [diffCharsF]
  rw [diffCharsF_eq _ _ _ (by omega),
      diffCharsF_eq _ _ _ (by simp; omega),
      diffCharsF_eq _ _ _ (by simp; omega)]

/-! Elementary facts about the LCS length and the unit-level script. -/

theorem lcsLen_le_left : ∀ (a b : List Char), lcsLen a b ≤ a.length := by
  suffices h : ∀ (n : Nat) (a b : List Char), a.length + b.length ≤ n →
      lcsLen a b ≤ a.length by
    intro a b; exact h (a.length + b.length) a b le_rfl
  intro n
  induction n with
  | zero =>
    intro a b hn
    cases a with
    | nil => rw [lcsLen_nil_left]; exact Nat.zero_le _
    | cons x xs => simp at hn
  | succ n ih =>
    intro a b hn
    cases a with
    | nil => rw [lcsLen_nil_left]; exact Nat.zero_le _
    | cons x xs =>
      cases b with
      | nil => rw [lcsLen_nil_right]; exact Nat.zero_le _
      | cons y ys =>
        rw [lcsLen_cons]
        simp only [List.length_cons] at hn ⊢
        split
        · have := ih xs ys (by omega)
          omega
        · have h1 := ih xs (y :: ys) (by simp; omega)
          have h2 := ih (x :: xs) ys (by simp; omega)
          simp only [List.length_cons] at h1 h2
          omega

theorem lcsLen_comm : ∀ (a b : List Char), lcsLen a b = lcsLen b a := by
  suffices h : ∀ (n : Nat) (a b : List Char), a.length + b.length ≤ n →
      lcsLen a b = lcsLen b a by
    intro a b; exact h (a.length + b.length) a b le_rfl
  intro n
  induction n with
  | zero =>
    intro a b hn
    have ha : a = [] := by cases a with
      | nil => rfl
      | cons x xs => simp at hn
    have hb : b = [] := by cases b with
      | nil => rfl
      | cons y ys => simp at hn
    rw [ha, hb]
  | succ n ih =>
    intro a b hn
    cases a with
    | nil => rw [lcsLen_nil_left, lcsLen_nil_right]
    | cons x xs =>
      cases b with
      | nil => rw [lcsLen_nil_left, lcsLen_nil_right]
      | cons y ys =>
        rw [lcsLen_cons, lcsLen_cons]
        simp only [List.length_cons] at hn
        by_cases hxy : x = y
        · have hyx : y = x := hxy.symm
          rw [if_pos hxy, if_pos hyx, ih xs ys (by omega)]
        · have hyx : ¬y = x := fun h => hxy h.symm
          rw [if_neg hxy, if_neg hyx,
              ih xs (y :: ys) (by simp; omega),
              ih (x :: xs) ys (by simp; omega),
              Nat.max_comm]

theorem counts_map_ins (b : List Char) :
    keepCount (b.map .ins) = 0 ∧ delCount (b.map .ins) = 0 ∧
    insCount (b.map .ins) = b.length := by
  induction b with
  | nil => exact ⟨rfl, rfl, rfl⟩
  | cons y ys ih =>
    simp only [List.map_cons, keepCount, delCount, insCount, List.length_cons]
    exact ⟨ih.1, ih.2.1, by rw [ih.2.2]⟩

theorem counts_map_del (a : List Char) :
    keepCount (a.map .del) = 0 ∧ delCount (a.map .del) = a.length ∧
    insCount (a.map .del) = 0 := by
  induction a with
  | nil => exact ⟨rfl, rfl, rfl⟩
  | cons x xs ih =>
    simp only [List.map_cons, keepCount, delCount, insCount, List.length_cons]
    exact ⟨ih.1, by rw [ih.2.1], ih.2.2⟩

/-- The unit-level script keeps exactly an LCS worth of units, deletes the
rest of side A, and inserts the rest of side B. -/
theorem counts_diff : ∀ (a b : List Char),
    keepCount (diffChars a b) = lcsLen a b ∧
    delCount (diffChars a b) + lcsLen a b = a.length ∧
    insCount (diffChars a b) + lcsLen a b = b.length := by
  suffices h : ∀ (n : Nat) (a b : List Char), a.length + b.length ≤ n →
      keepCount (diffChars a b) = lcsLen a b ∧
      delCount (diffChars a b) + lcsLen a b = a.length ∧
      insCount (diffChars a b) + lcsLen a b = b.length by
    intro a b; exact h (a.length + b.length) a b le_rfl
  intro n
  induction n with
  | zero =>
    intro a b hn
    have ha : a = [] := by cases a with
      | nil => rfl
      | cons x xs => simp at hn
    have hb : b = [] := by cases b with
      | nil => rfl
      | cons y ys => simp at hn
    subst ha; subst hb
    exact ⟨rfl, rfl, rfl⟩
  | succ n ih =>
    intro a b hn
    cases a with
    | nil =>
      rw [diffChars_nil_left, lcsLen_nil_left]
      obtain ⟨h1, h2, h3⟩ := counts_map_ins b
      exact ⟨h1, by simpa using h2, by omega⟩
    | cons x xs =>
      cases b with
      | nil =>
        rw [diffChars_nil_right, lcsLen_nil_right]
        obtain ⟨h1, h2, h3⟩ := counts_map_del (x :: xs)
        exact ⟨h1, by omega, by simpa using h3⟩
      | cons y ys =>
        rw [diffChars_cons, lcsLen_cons]
        simp only [List.length_cons] at hn
        by_cases hxy : x = y
        · rw [if_pos hxy, if_pos hxy]
          have h := ih xs ys (by omega)
          simp only [keepCount, delCount, insCount, List.length_cons]
          exact ⟨by omega, by omega, by omega⟩
        · rw [if_neg hxy, if_neg hxy]
          by_cases hc : lcsLen (x :: xs) ys ≤ lcsLen xs (y :: ys)
          · rw [if_pos hc, Nat.max_eq_left hc]
            have h := ih xs (y :: ys) (by simp; omega)
            simp only [keepCount, delCount, insCount, List.length_cons] at h ⊢
            exact ⟨h.1, by omega, by omega⟩
          · rw [if_neg hc, Nat.max_eq_right (Nat.le_of_lt (Nat.lt_of_not_le hc))]
            have h := ih (x :: xs) ys (by simp; omega)
            simp only [keepCount, delCount, insCount, List.length_cons] at h ⊢
            exact ⟨h.1, by omega, by omega⟩

/-! Facts about the normalizer and its position map. -/

theorem posMapFrom_mem : ∀ (l : List Char) (i v : Nat),
    v ∈ posMapFrom i l → i ≤ v ∧ v < i + l.length := by
  intro l
  induction l with
  | nil => intro i v h; simp [posMapFrom] at h
  | cons c cs ih =>
    intro i v h
    simp only [posMapFrom] at h
    simp only [List.length_cons]
    split at h
    · have := ih (i + 1) v h
      omega
    · rcases List.mem_cons.mp h with rfl | h2
      · omega
      · have := ih (i + 1) v h2
        omega

theorem posMapFrom_chain : ∀ (l : List Char) (i : Nat),
    List.Chain' (· < ·) (posMapFrom i l) := by
  intro l
  induction l with
  | nil => intro i; simp [posMapFrom]
  | cons c cs ih =>
    intro i
    simp only [posMapFrom]
    split
    · exact ih (i + 1)
    · refine List.chain'_cons'.mpr ⟨?_, ih (i + 1)⟩
      intro b hb
      have hmem : b ∈ posMapFrom (i + 1) cs := List.mem_of_mem_head? hb
      have := posMapFrom_mem cs (i + 1) b hmem
      omega

theorem posMapFrom_length : ∀ (l : List Char) (i : Nat),
    (posMapFrom i l).length = (normalize_text l).length := by
  intro l
  induction l with
  | nil => intro i; rfl
  | cons c cs ih =>
    intro i
    simp only [posMapFrom, normalize_text, List.filter_cons]
    cases h : isStripped c with
    | true => simpa [h] using ih (i + 1)
    | false => simpa [h] using ih (i + 1)

theorem posMapFrom_unstripped : ∀ (l : List Char),
    (∀ c ∈ l, isStripped c = false) → ∀ i, posMapFrom i l = List.range' i l.length := by
  intro l
  induction l with
  | nil => intro _ i; rfl
  | cons c cs ih =>
    intro h i
    have hc : isStripped c = false := h c (List.mem_cons_self c cs)
    simp only [posMapFrom, hc, if_neg Bool.false_ne_true, List.length_cons,
      List.range'_succ]
    rw [ih (fun d hd => h d (List.mem_cons_of_mem c hd)) (i + 1)]

theorem mem_normalize_text (l : List Char) :
    ∀ c ∈ normalize_text l, isStripped c = false := by
  intro c hc
  have := (List.mem_filter.mp hc).2
  simpa using this

theorem normalize_text_idem (l : List Char) :
    normalize_text (normalize_text l) = normalize_text l := by
  apply List.filter_eq_self.mpr
  intro c hc
  simpa using mem_normalize_text l c hc

/-! Unit-count bookkeeping for scripts. -/

theorem aUnits_keep (c : Char) (es : List Edit) :
    aUnits (.keep c :: es) = aUnits es + 1 := by
  simp only [aUnits, keepCount, delCount]; omega

theorem aUnits_del (c : Char) (es : List Edit) :
    aUnits (.del c :: es) = aUnits es + 1 := by
  simp only [aUnits, keepCount, delCount]; omega

theorem aUnits_ins (c : Char) (es : List Edit) :
    aUnits (.ins c :: es) = aUnits es := by
  simp only [aUnits, keepCount, delCount]

theorem bUnits_keep (c : Char) (es : List Edit) :
    bUnits (.keep c :: es) = bUnits es + 1 := by
  simp only [bUnits, keepCount, insCount]; omega

theorem bUnits_del (c : Char) (es : List Edit) :
    bUnits (.del c :: es) = bUnits es := by
  simp only [bUnits, keepCount, insCount]

theorem bUnits_ins (c : Char) (es : List Edit) :
    bUnits (.ins c :: es) = bUnits es + 1 := by
  simp only [bUnits, keepCount, insCount]; omega

/-! Two small helpers on strictly increasing chains of naturals. -/

theorem chain_head_le {a b : Nat} {t : List Nat} (hab : a ≤ b)
    (h : List.Chain' (· < ·) (b :: t)) : List.Chain' (· < ·) (a :: t) := by
  cases t with
  | nil => simp
  | cons u t2 =>
    rw [List.chain'_cons] at h ⊢
    exact ⟨by omega, h.2⟩

theorem chain_cons_of_lt {a b : Nat} {t : List Nat} (hab : a < b)
    (h : List.Chain' (· < ·) (b :: t)) : List.Chain' (· < ·) (a :: b :: t) :=
  List.chain'_cons.mpr ⟨hab, h⟩

/-- Start offsets of `buildOps es ia ib` on each side: when a side consumes
no units the side has no start offsets; otherwise its list of start
offsets is strictly increasing and begins exactly at the side's starting
offset. -/
theorem buildOps_starts : ∀ (es : List Edit) (ia ib : Nat),
    ((aUnits es = 0 → (buildOps es ia ib).filterMap (opStartIdx .A) = []) ∧
     (0 < aUnits es → ∃ t, (buildOps es ia ib).filterMap (opStartIdx .A) = ia :: t ∧
        List.Chain' (· < ·) (ia :: t))) ∧
    ((bUnits es = 0 → (buildOps es ia ib).filterMap (opStartIdx .B) = []) ∧
     (0 < bUnits es → ∃ t, (buildOps es ia ib).filterMap (opStartIdx .B) = ib :: t ∧
        List.Chain' (· < ·) (ib :: t))) := by
  intro es
  induction es with
  | nil =>
    intro ia ib
    exact ⟨⟨fun _ => rfl, fun h => absurd h (by simp [aUnits, keepCount, delCount])⟩,
           ⟨fun _ => rfl, fun h => absurd h (by simp [bUnits, keepCount, insCount])⟩⟩
  | cons e es ih =>
    intro ia ib
    cases e with
    | keep c =>
      obtain ⟨⟨ihA0, ihA1⟩, ihB0, ihB1⟩ := ih (ia + 1) (ib + 1)
      cases hb : buildOps es (ia + 1) (ib + 1) with
      | nil =>
        have hres : buildOps (.keep c :: es) ia ib = [.equal (ia, ia + 1) (ib, ib + 1)] := by
          simp [buildOps, hb]
        refine ⟨⟨fun h0 => absurd h0 (by simp [aUnits_keep]),
                 fun _ => ⟨[], by rw [hres]; simp [opStartIdx], by simp⟩⟩,
                ⟨fun h0 => absurd h0 (by simp [bUnits_keep]),
                 fun _ => ⟨[], by rw [hres]; simp [opStartIdx], by simp⟩⟩⟩
      | cons op rest =>
        cases op with
        | equal ra rb =>
          have hres : buildOps (.keep c :: es) ia ib = .equal (ia, ra.2) (ib, rb.2) :: rest := by
            simp [buildOps, hb]
          have hApos : 0 < aUnits es := by
            rcases Nat.eq_zero_or_pos (aUnits es) with h0 | h1
            · have h2 := ihA0 h0; rw [hb] at h2; simp [opStartIdx] at h2
            · exact h1
          have hBpos : 0 < bUnits es := by
            rcases Nat.eq_zero_or_pos (bUnits es) with h0 | h1
            · have h2 := ihB0 h0; rw [hb] at h2; simp [opStartIdx] at h2
            · exact h1
          obtain ⟨t, ht, hch⟩ := ihA1 hApos
          rw [hb] at ht
          simp only [List.filterMap_cons, opStartIdx] at ht
          obtain ⟨u, hu, hchB⟩ := ihB1 hBpos
          rw [hb] at hu
          simp only [List.filterMap_cons, opStartIdx] at hu
          injection ht with ht1 ht2
          injection hu with hu1 hu2
          refine ⟨⟨fun h0 => absurd h0 (by simp [aUnits_keep]), fun _ => ⟨t, ?_, ?_⟩⟩,
                  ⟨fun h0 => absurd h0 (by simp [bUnits_keep]), fun _ => ⟨u, ?_, ?_⟩⟩⟩
          · rw [hres]; simp only [List.filterMap_cons, opStartIdx]; rw [ht2]
          · exact chain_head_le (by omega) hch
          · rw [hres]; simp only [List.filterMap_cons, opStartIdx]; rw [hu2]
          · exact chain_head_le (by omega) hchB
        | delete ra =>
          have hres : buildOps (.keep c :: es) ia ib =
              .equal (ia, ia + 1) (ib, ib + 1) :: .delete ra :: rest := by
            simp [buildOps, hb]
          have hApos : 0 < aUnits es := by
            rcases Nat.eq_zero_or_pos (aUnits es) with h0 | h1
            · have h2 := ihA0 h0; rw [hb] at h2; simp [opStartIdx] at h2
            · exact h1
          obtain ⟨t, ht, hch⟩ := ihA1 hApos
          rw [hb] at ht
          simp only [List.filterMap_cons, opStartIdx] at ht
          injection ht with ht1 ht2
          refine ⟨⟨fun h0 => absurd h0 (by simp [aUnits_keep]),
                   fun _ => ⟨ra.1 :: t, ?_, ?_⟩⟩,
                  ⟨fun h0 => absurd h0 (by simp [bUnits_keep]), fun _ => ?_⟩⟩
          · rw [hres]; simp only [List.filterMap_cons, opStartIdx]; rw [ht2]
          · rw [ht1]; exact chain_cons_of_lt (by omega) (ht1 ▸ hch)
          · -- side B: the tail list for B
            rcases Nat.eq_zero_or_pos (bUnits es) with h0 | h1
            · have h2 := ihB0 h0
              rw [hb] at h2
              simp only [List.filterMap_cons, opStartIdx] at h2
              exact ⟨[], by rw [hres]; simp only [List.filterMap_cons, opStartIdx]; rw [h2], by simp⟩
            · obtain ⟨u, hu, hchB⟩ := ihB1 h1
              rw [hb] at hu
              simp only [List.filterMap_cons, opStartIdx] at hu
              refine ⟨(ib + 1) :: u, ?_, ?_⟩
              · rw [hres]; simp only [List.filterMap_cons, opStartIdx]; rw [hu]
              · exact chain_cons_of_lt (by omega) hchB
        | insert rb =>
          have hres : buildOps (.keep c :: es) ia ib =
              .equal (ia, ia + 1) (ib, ib + 1) :: .insert rb :: rest := by
            simp [buildOps, hb]
          have hBpos : 0 < bUnits es := by
            rcases Nat.eq_zero_or_pos (bUnits es) with h0 | h1
            · have h2 := ihB0 h0; rw [hb] at h2; simp [opStartIdx] at h2
            · exact h1
          obtain ⟨u, hu, hchB⟩ := ihB1 hBpos
          rw [hb] at hu
          simp only [List.filterMap_cons, opStartIdx] at hu
          injection hu with hu1 hu2
          refine ⟨⟨fun h0 => absurd h0 (by simp [aUnits_keep]), fun _ => ?_⟩,
                  ⟨fun h0 => absurd h0 (by simp [bUnits_keep]),
                   fun _ => ⟨rb.1 :: u, ?_, ?_⟩⟩⟩
          · rcases Nat.eq_zero_or_pos (aUnits es) with h0 | h1
            · have h2 := ihA0 h0
              rw [hb] at h2
              simp only [List.filterMap_cons, opStartIdx] at h2
              exact ⟨[], by rw [hres]; simp only [List.filterMap_cons, opStartIdx]; rw [h2], by simp⟩
            · obtain ⟨t, ht, hch⟩ := ihA1 h1
              rw [hb] at ht
              simp only [List.filterMap_cons, opStartIdx] at ht
              refine ⟨(ia + 1) :: t, ?_, ?_⟩
              · rw [hres]; simp only [List.filterMap_cons, opStartIdx]; rw [ht]
              · exact chain_cons_of_lt (by omega) hch
          · rw [hres]; simp only [List.filterMap_cons, opStartIdx]; rw [hu2]
          · rw [hu1]; exact chain_cons_of_lt (by omega) (hu1 ▸ hchB)
        | replace ra rb =>
          have hres : buildOps (.keep c :: es) ia ib =
              .equal (ia, ia + 1) (ib, ib + 1) :: .replace ra rb :: rest := by
            simp [buildOps, hb]
          have hApos : 0 < aUnits es := by
            rcases Nat.eq_zero_or_pos (aUnits es) with h0 | h1
            · have h2 := ihA0 h0; rw [hb] at h2; simp [opStartIdx] at h2
            · exact h1
          have hBpos : 0 < bUnits es := by
            rcases Nat.eq_zero_or_pos (bUnits es) with h0 | h1
            · have h2 := ihB0 h0; rw [hb] at h2; simp [opStartIdx] at h2
            · exact h1
          obtain ⟨t, ht, hch⟩ := ihA1 hApos
          rw [hb] at ht
          simp only [List.filterMap_cons, opStartIdx] at ht
          injection ht with ht1 ht2
          obtain ⟨u, hu, hchB⟩ := ihB1 hBpos
          rw [hb] at hu
          simp only [List.filterMap_cons, opStartIdx] at hu
          injection hu with hu1 hu2
          refine ⟨⟨fun h0 => absurd h0 (by simp [aUnits_keep]),
                   fun _ => ⟨ra.1 :: t, ?_, ?_⟩⟩,
                  ⟨fun h0 => absurd h0 (by simp [bUnits_keep]),
                   fun _ => ⟨rb.1 :: u, ?_, ?_⟩⟩⟩
          · rw [hres]; simp only [List.filterMap_cons, opStartIdx]; rw [ht2]
          · rw [ht1]; exact chain_cons_of_lt (by omega) (ht1 ▸ hch)
          · rw [hres]; simp only [List.filterMap_cons, opStartIdx]; rw [hu2]
          · rw [hu1]; exact chain_cons_of_lt (by omega) (hu1 ▸ hchB)
    | del c =>
      obtain ⟨⟨ihA0, ihA1⟩, ihB0, ihB1⟩ := ih (ia + 1) ib
      cases hb : buildOps es (ia + 1) ib with
      | nil =>
        have hres : buildOps (.del c :: es) ia ib = [.delete (ia, ia + 1)] := by
          simp [buildOps, hb]
        refine ⟨⟨fun h0 => absurd h0 (by simp [aUnits_del]),
                 fun _ => ⟨[], by rw [hres]; simp [opStartIdx], by simp⟩⟩,
                ⟨fun _ => by rw [hres]; simp [opStartIdx], fun hpos => ?_⟩⟩
        rw [bUnits_del] at hpos
        obtain ⟨u, hu, _⟩ := ihB1 hpos
        rw [hb] at hu
        simp at hu
      | cons op rest =>
        cases op with
        | equal ra rb =>
          have hres : buildOps (.del c :: es) ia ib =
              .delete (ia, ia + 1) :: .equal ra rb :: rest := by
            simp [buildOps, hb]
          have hApos : 0 < aUnits es := by
            rcases Nat.eq_zero_or_pos (aUnits es) with h0 | h1
            · have h2 := ihA0 h0; rw [hb] at h2; simp [opStartIdx] at h2
            · exact h1
          have hBpos : 0 < bUnits es := by
            rcases Nat.eq_zero_or_pos (bUnits es) with h0 | h1
            · have h2 := ihB0 h0; rw [hb] at h2; simp [opStartIdx] at h2
            · exact h1
          obtain ⟨t, ht, hch⟩ := ihA1 hApos
          rw [hb] at ht
          simp only [List.filterMap_cons, opStartIdx] at ht
          obtain ⟨u, hu, hchB⟩ := ihB1 hBpos
          rw [hb] at hu
          simp only [List.filterMap_cons, opStartIdx] at hu
          refine ⟨⟨fun h0 => absurd h0 (by simp [aUnits_del]),
                   fun _ => ⟨(ia + 1) :: t, ?_, ?_⟩⟩,
                  ⟨fun h0 => absurd h0 (by rw [bUnits_del]; omega),
                   fun _ => ⟨u, ?_, hchB⟩⟩⟩
          · rw [hres]
            simp only [List.filterMap_cons, opStartIdx]
            rw [ht]
          · exact chain_cons_of_lt (by omega) hch
          · rw [hres]
            simp only [List.filterMap_cons, opStartIdx]
            exact hu
        | delete ra =>
          have hres : buildOps (.del c :: es) ia ib = .delete (ia, ra.2) :: rest := by
            simp [buildOps, hb]
          have hApos : 0 < aUnits es := by
            rcases Nat.eq_zero_or_pos (aUnits es) with h0 | h1
            · have h2 := ihA0 h0; rw [hb] at h2; simp [opStartIdx] at h2
            · exact h1
          obtain ⟨t, ht, hch⟩ := ihA1 hApos
          rw [hb] at ht
          simp only [List.filterMap_cons, opStartIdx] at ht
          injection ht with ht1 ht2
          refine ⟨⟨fun h0 => absurd h0 (by simp [aUnits_del]),
                   fun _ => ⟨t, ?_, chain_head_le (by omega) hch⟩⟩,
                  ⟨fun h0 => ?_, fun hpos => ?_⟩⟩
          · rw [hres]; simp only [List.filterMap_cons, opStartIdx]; rw [ht2]
          · rw [bUnits_del] at h0
            have h2 := ihB0 h0
            rw [hb] at h2
            simp only [List.filterMap_cons, opStartIdx] at h2
            rw [hres]
            simp only [List.filterMap_cons, opStartIdx]
            exact h2
          · rw [bUnits_del] at hpos
            obtain ⟨u, hu, hchB⟩ := ihB1 hpos
            rw [hb] at hu
            simp only [List.filterMap_cons, opStartIdx] at hu
            refine ⟨u, ?_, hchB⟩
            rw [hres]
            simp only [List.filterMap_cons, opStartIdx]
            exact hu
        | insert rb =>
          have hres : buildOps (.del c :: es) ia ib = .replace (ia, ia + 1) rb :: rest := by
            simp [buildOps, hb]
          have hBpos : 0 < bUnits es := by
            rcases Nat.eq_zero_or_pos (bUnits es) with h0 | h1
            · have h2 := ihB0 h0; rw [hb] at h2; simp [opStartIdx] at h2
            · exact h1
          obtain ⟨u, hu, hchB⟩ := ihB1 hBpos
          rw [hb] at hu
          simp only [List.filterMap_cons, opStartIdx] at hu
          refine ⟨⟨fun h0 => absurd h0 (by simp [aUnits_del]), fun _ => ?_⟩,
                  ⟨fun h0 => absurd h0 (by rw [bUnits_del]; omega),
                   fun _ => ⟨u, ?_, hchB⟩⟩⟩
          · rcases Nat.eq_zero_or_pos (aUnits es) with h0 | h1
            · have h2 := ihA0 h0
              rw [hb] at h2
              simp only [List.filterMap_cons, opStartIdx] at h2
              exact ⟨[], by rw [hres]; simp only [List.filterMap_cons, opStartIdx]; rw [h2], by simp⟩
            · obtain ⟨t, ht, hch⟩ := ihA1 h1
              rw [hb] at ht
              simp only [List.filterMap_cons, opStartIdx] at ht
              refine ⟨(ia + 1) :: t, ?_, chain_cons_of_lt (by omega) hch⟩
              rw [hres]; simp only [List.filterMap_cons, opStartIdx]; rw [ht]
          · rw [hres]
            simp only [List.filterMap_cons, opStartIdx]
            exact hu
        | replace ra rb =>
          have hres : buildOps (.del c :: es) ia ib = .replace (ia, ra.2) rb :: rest := by
            simp [buildOps, hb]
          have hApos : 0 < aUnits es := by
            rcases Nat.eq_zero_or_pos (aUnits es) with h0 | h1
            · have h2 := ihA0 h0; rw [hb] at h2; simp [opStartIdx] at h2
            · exact h1
          have hBpos : 0 < bUnits es := by
            rcases Nat.eq_zero_or_pos (bUnits es) with h0 | h1
            · have h2 := ihB0 h0; rw [hb] at h2; simp [opStartIdx] at h2
            · exact h1
          obtain ⟨t, ht, hch⟩ := ihA1 hApos
          rw [hb] at ht
          simp only [List.filterMap_cons, opStartIdx] at ht
          injection ht with ht1 ht2
          obtain ⟨u, hu, hchB⟩ := ihB1 hBpos
          rw [hb] at hu
          simp only [List.filterMap_cons, opStartIdx] at hu
          refine ⟨⟨fun h0 => absurd h0 (by simp [aUnits_del]),
                   fun _ => ⟨t, ?_, chain_head_le (by omega) hch⟩⟩,
                  ⟨fun h0 => absurd h0 (by rw [bUnits_del]; omega),
                   fun _ => ⟨u, ?_, hchB⟩⟩⟩
          · rw [hres]; simp only [List.filterMap_cons, opStartIdx]; rw [ht2]
          · rw [hres]; simp only [List.filterMap_cons, opStartIdx]; exact hu
    | ins c =>
      obtain ⟨⟨ihA0, ihA1⟩, ihB0, ihB1⟩ := ih ia (ib + 1)
      cases hb : buildOps es ia (ib + 1) with
      | nil =>
        have hres : buildOps (.ins c :: es) ia ib = [.insert (ib, ib + 1)] := by
          simp [buildOps, hb]
        refine ⟨⟨fun _ => by rw [hres]; simp [opStartIdx], fun hpos => ?_⟩,
                ⟨fun h0 => absurd h0 (by simp [bUnits_ins]),
                 fun _ => ⟨[], by rw [hres]; simp [opStartIdx], by simp⟩⟩⟩
        rw [aUnits_ins] at hpos
        obtain ⟨t, ht, _⟩ := ihA1 hpos
        rw [hb] at ht
        simp at ht
      | cons op rest =>
        cases op with
        | equal ra rb =>
          have hres : buildOps (.ins c :: es) ia ib =
              .insert (ib, ib + 1) :: .equal ra rb :: rest := by
            simp [buildOps, hb]
          have hApos : 0 < aUnits es := by
            rcases Nat.eq_zero_or_pos (aUnits es) with h0 | h1
            · have h2 := ihA0 h0; rw [hb] at h2; simp [opStartIdx] at h2
            · exact h1
          have hBpos : 0 < bUnits es := by
            rcases Nat.eq_zero_or_pos (bUnits es) with h0 | h1
            · have h2 := ihB0 h0; rw [hb] at h2; simp [opStartIdx] at h2
            · exact h1
          obtain ⟨t, ht, hch⟩ := ihA1 hApos
          rw [hb] at ht
          simp only [List.filterMap_cons, opStartIdx] at ht
          obtain ⟨u, hu, hchB⟩ := ihB1 hBpos
          rw [hb] at hu
          simp only [List.filterMap_cons, opStartIdx] at hu
          refine ⟨⟨fun h0 => absurd h0 (by rw [aUnits_ins]; omega),
                   fun _ => ⟨t, ?_, hch⟩⟩,
                  ⟨fun h0 => absurd h0 (by simp [bUnits_ins]),
                   fun _ => ⟨(ib + 1) :: u, ?_, ?_⟩⟩⟩
          · rw [hres]
            simp only [List.filterMap_cons, opStartIdx]
            exact ht
          · rw [hres]
            simp only [List.filterMap_cons, opStartIdx]
            rw [hu]
          · exact chain_cons_of_lt (by omega) hchB
        | delete ra =>
          have hres : buildOps (.ins c :: es) ia ib = .replace ra (ib, ib + 1) :: rest := by
            simp [buildOps, hb]
          have hApos : 0 < aUnits es := by
            rcases Nat.eq_zero_or_pos (aUnits es) with h0 | h1
            · have h2 := ihA0 h0; rw [hb] at h2; simp [opStartIdx] at h2
            · exact h1
          obtain ⟨t, ht, hch⟩ := ihA1 hApos
          rw [hb] at ht
          simp only [List.filterMap_cons, opStartIdx] at ht
          refine ⟨⟨fun h0 => absurd h0 (by rw [aUnits_ins]; omega),
                   fun _ => ⟨t, ?_, hch⟩⟩,
                  ⟨fun h0 => absurd h0 (by simp [bUnits_ins]), fun _ => ?_⟩⟩
          · rw [hres]
            simp only [List.filterMap_cons, opStartIdx]
            exact ht
          · rcases Nat.eq_zero_or_pos (bUnits es) with h0 | h1
            · have h2 := ihB0 h0
              rw [hb] at h2
              simp only [List.filterMap_cons, opStartIdx] at h2
              exact ⟨[], by rw [hres]; simp only [List.filterMap_cons, opStartIdx]; rw [h2], by simp⟩
            · obtain ⟨u, hu, hchB⟩ := ihB1 h1
              rw [hb] at hu
              simp only [List.filterMap_cons, opStartIdx] at hu
              refine ⟨(ib + 1) :: u, ?_, chain_cons_of_lt (by omega) hchB⟩
              rw [hres]; simp only [List.filterMap_cons, opStartIdx]; rw [hu]
        | insert rb =>
          have hres : buildOps (.ins c :: es) ia ib = .insert (ib, rb.2) :: rest := by
            simp [buildOps, hb]
          have hBpos : 0 < bUnits es := by
            rcases Nat.eq_zero_or_pos (bUnits es) with h0 | h1
            · have h2 := ihB0 h0; rw [hb] at h2; simp [opStartIdx] at h2
            · exact h1
          obtain ⟨u, hu, hchB⟩ := ihB1 hBpos
          rw [hb] at hu
          simp only [List.filterMap_cons, opStartIdx] at hu
          injection hu with hu1 hu2
          refine ⟨⟨fun h0 => ?_, fun hpos => ?_⟩,
                  ⟨fun h0 => absurd h0 (by simp [bUnits_ins]),
                   fun _ => ⟨u, ?_, chain_head_le (by omega) hchB⟩⟩⟩
          · rw [aUnits_ins] at h0
            have h2 := ihA0 h0
            rw [hb] at h2
            simp only [List.filterMap_cons, opStartIdx] at h2
            rw [hres]
            simp only [List.filterMap_cons, opStartIdx]
            exact h2
          · rw [aUnits_ins] at hpos
            obtain ⟨t, ht, hch⟩ := ihA1 hpos
            rw [hb] at ht
            simp only [List.filterMap_cons, opStartIdx] at ht
            refine ⟨t, ?_, hch⟩
            rw [hres]
            simp only [List.filterMap_cons, opStartIdx]
            exact ht
          · rw [hres]; simp only [List.filterMap_cons, opStartIdx]; rw [hu2]
        | replace ra rb =>
          have hres : buildOps (.ins c :: es) ia ib = .replace ra (ib, rb.2) :: rest := by
            simp [buildOps, hb]
          have hApos : 0 < aUnits es := by
            rcases Nat.eq_zero_or_pos (aUnits es) with h0 | h1
            · have h2 := ihA0 h0; rw [hb] at h2; simp [opStartIdx] at h2
            · exact h1
          have hBpos : 0 < bUnits es := by
            rcases Nat.eq_zero_or_pos (bUnits es) with h0 | h1
            · have h2 := ihB0 h0; rw [hb] at h2; simp [opStartIdx] at h2
            · exact h1
          obtain ⟨t, ht, hch⟩ := ihA1 hApos
          rw [hb] at ht
          simp only [List.filterMap_cons, opStartIdx] at ht
          obtain ⟨u, hu, hchB⟩ := ihB1 hBpos
          rw [hb] at hu
          simp only [List.filterMap_cons, opStartIdx] at hu
          injection hu with hu1 hu2
          refine ⟨⟨fun h0 => absurd h0 (by rw [aUnits_ins]; omega),
                   fun _ => ⟨t, ?_, hch⟩⟩,
                  ⟨fun h0 => absurd h0 (by simp [bUnits_ins]),
                   fun _ => ⟨u, ?_, chain_head_le (by omega) hchB⟩⟩⟩
          · rw [hres]; simp only [List.filterMap_cons, opStartIdx]; exact ht
          · rw [hres]; simp only [List.filterMap_cons, opStartIdx]; rw [hu2]

/-! Connecting side start lists, the position map, and span projection. -/

theorem sideStarts_snd (side : Side) (ops : List EditOp) :
    (sideStarts side ops).map Prod.snd = ops.filterMap (opStartIdx side) := by
  rw [sideStarts, List.map_filterMap]
  congr 1
  funext op
  cases h : opStartIdx side op <;> simp [h]

theorem projIdx_mono {pm : List Nat} {rlen : Nat}
    (hch : List.Chain' (· < ·) pm) (hmem : ∀ v ∈ pm, v < rlen) :
    ∀ {i j : Nat}, i ≤ j → projIdx pm rlen i ≤ projIdx pm rlen j := by
  intro i j hij
  have hpw : List.Pairwise (· < ·) pm := List.chain'_iff_pairwise.mp hch
  unfold projIdx
  by_cases hj : j < pm.length
  · have hi : i < pm.length := Nat.lt_of_le_of_lt hij hj
    rw [List.getD_eq_getElem?_getD, List.getElem?_eq_getElem hi,
        List.getD_eq_getElem?_getD, List.getElem?_eq_getElem hj]
    simp only [Option.getD_some]
    rcases Nat.eq_or_lt_of_le hij with rfl | hlt
    · exact le_rfl
    · exact Nat.le_of_lt (List.pairwise_iff_getElem.mp hpw i j hi hj hlt)
  · rw [List.getD_eq_getElem?_getD (l := pm) (n := j), List.getElem?_eq_none (Nat.le_of_not_lt hj)]
    simp only [Option.getD_none]
    by_cases hi : i < pm.length
    · rw [List.getD_eq_getElem?_getD, List.getElem?_eq_getElem hi]
      simp only [Option.getD_some]
      exact Nat.le_of_lt (hmem _ (List.getElem_mem hi))
    · rw [List.getD_eq_getElem?_getD, List.getElem?_eq_none (Nat.le_of_not_lt hi)]
      simp

theorem drop_take_drop (l : List Char) (s t : Nat) (h : s ≤ t) :
    (l.drop s).take (t - s) ++ l.drop t = l.drop s := by
  conv_rhs => rw [← List.take_append_drop (t - s) (l.drop s)]
  congr 1
  rw [List.drop_drop]
  congr 1
  omega

theorem segment_cons_cons (raw : List Char) (st : Status) (s : Nat) (q : Status × Nat)
    (rest : List (Status × Nat)) :
    segment raw ((st, s) :: q :: rest) =
      ⟨st, (raw.drop s).take (q.2 - s)⟩ :: segment raw (q :: rest) := by
  obtain ⟨q1, q2⟩ := q
  rfl

theorem segment_concat (raw : List Char) :
    ∀ (rest : List (Status × Nat)) (st : Status) (s : Nat),
      List.Chain' (fun p q : Status × Nat => p.2 ≤ q.2) ((st, s) :: rest) →
      concatTexts (segment raw ((st, s) :: rest)) = raw.drop s := by
  intro rest
  induction rest with
  | nil => intro st s _; simp [segment, concatTexts]
  | cons q rest2 ih =>
    intro st s hch
    obtain ⟨q1, q2⟩ := q
    rw [List.chain'_cons] at hch
    rw [segment_cons_cons]
    simp only [concatTexts]
    rw [ih q1 q2 hch.2]
    exact drop_take_drop raw s q2 hch.1

/-- Assembly: when a side's start-offset list begins at normalized offset 0
and is strictly increasing, the concatenated projected spans of that side
are the raw text from the raw position of normalized offset 0 onward. -/
theorem sideSpans_concat {side : Side} {ops : List EditOp} {pm : List Nat} {raw : List Char}
    {t : List Nat}
    (hS : ops.filterMap (opStartIdx side) = 0 :: t)
    (hchain : List.Chain' (· < ·) (0 :: t))
    (hpm : List.Chain' (· < ·) pm)
    (hmem : ∀ v ∈ pm, v < raw.length)
    (hne : pm ≠ []) :
    concatTexts (sideSpans side ops pm raw) = raw.drop (pm.headD 0) := by
  have hsnd := sideStarts_snd side ops
  rw [hS] at hsnd
  cases hSS : sideStarts side ops with
  | nil => rw [hSS] at hsnd; simp at hsnd
  | cons p rest =>
    rw [hSS] at hsnd
    simp only [List.map_cons] at hsnd
    injection hsnd with h1 h2
    have hpl : List.Chain' (fun a b : Status × Nat => a.2 < b.2) (p :: rest) := by
      rw [← List.chain'_map Prod.snd, List.map_cons, h1, h2]
      exact hchain
    have hchain2 : List.Chain' (fun a b : Status × Nat => a.2 ≤ b.2)
        (List.map (fun q => (q.1, projIdx pm raw.length q.2)) (p :: rest)) := by
      rw [List.chain'_map]
      exact hpl.imp (fun a b hab => projIdx_mono hpm hmem (Nat.le_of_lt hab))
    rw [sideSpans, hSS]
    simp only [List.map_cons] at hchain2 ⊢
    rw [segment_concat raw _ _ _ hchain2, h1]
    cases pm with
    | nil => exact absurd rfl hne
    | cons v pm2 => simp [projIdx]

/-! Engine-level instantiations. -/

theorem aUnits_diff (a b : List Char) : aUnits (diffChars a b) = a.length := by
  obtain ⟨h1, h2, h3⟩ := counts_diff a b
  have hle := lcsLen_le_left a b
  simp only [aUnits]
  omega

theorem bUnits_diff (a b : List Char) : bUnits (diffChars a b) = b.length := by
  obtain ⟨h1, h2, h3⟩ := counts_diff a b
  simp only [bUnits]
  omega

theorem posMap_chain (l : List Char) : List.Chain' (· < ·) (posMap l) :=
  posMapFrom_chain l 0

theorem posMap_mem (l : List Char) : ∀ v ∈ posMap l, v < l.length := by
  intro v hv
  have := posMapFrom_mem l 0 v hv
  omega

theorem posMap_length (l : List Char) : (posMap l).length = (normalize_text l).length :=
  posMapFrom_length l 0

theorem posMap_ne_nil (l : List Char) (h : normalize_text l ≠ []) : posMap l ≠ [] := by
  intro h0
  apply h
  have hlen := posMap_length l
  rw [h0] at hlen
  exact List.length_eq_zero.mp hlen.symm

/-- Coverage for side A of the full pipeline: the projected spans
concatenate to the raw text from the raw position of its first kept
character onward. -/
theorem coverage_left (a b : List Char) (h : normalize_text a ≠ []) :
    concatTexts (compareNormalized a b).1 = a.drop ((posMap a).headD 0) := by
  have hA : 0 < aUnits (diffChars (normalize_text a) (normalize_text b)) := by
    rw [aUnits_diff]
    cases hna : normalize_text a with
    | nil => exact absurd hna h
    | cons c cs => simp
  obtain ⟨⟨_, hApos⟩, _⟩ := buildOps_starts (diffChars (normalize_text a) (normalize_text b)) 0 0
  obtain ⟨t, ht, hch⟩ := hApos hA
  simp only [compareNormalized, compare_normalized_texts, project, align]
  exact sideSpans_concat ht hch (posMap_chain a) (posMap_mem a) (posMap_ne_nil a h)

/-- Coverage for side B of the full pipeline. -/
theorem coverage_right (a b : List Char) (h : normalize_text b ≠ []) :
    concatTexts (compareNormalized a b).2 = b.drop ((posMap b).headD 0) := by
  have hB : 0 < bUnits (diffChars (normalize_text a) (normalize_text b)) := by
    rw [bUnits_diff]
    cases hnb : normalize_text b with
    | nil => exact absurd hnb h
    | cons c cs => simp
  obtain ⟨_, ⟨_, hBpos⟩⟩ := buildOps_starts (diffChars (normalize_text a) (normalize_text b)) 0 0
  obtain ⟨t, ht, hch⟩ := hBpos hB
  simp only [compareNormalized, compare_normalized_texts, project, align]
  exact sideSpans_concat ht hch (posMap_chain b) (posMap_mem b) (posMap_ne_nil b h)

/-! Support for identity alignment and idempotence. -/

theorem diffChars_self : ∀ (s : List Char), diffChars s s = s.map .keep := by
  intro s
  induction s with
  | nil => rfl
  | cons x xs ih => rw [diffChars_cons, if_pos rfl, ih]; rfl

theorem buildOps_keep_equal (c : Char) (es : List Edit) (ia ib : Nat) (ra rb : Nat × Nat)
    (rest : List EditOp) (hb : buildOps es (ia + 1) (ib + 1) = .equal ra rb :: rest) :
    buildOps (.keep c :: es) ia ib = .equal (ia, ra.2) (ib, rb.2) :: rest := by
  simp [buildOps, hb]

theorem buildOps_keeps : ∀ (s : List Char) (x : Char) (ia ib : Nat),
    buildOps ((x :: s).map .keep) ia ib =
      [.equal (ia, ia + s.length + 1) (ib, ib + s.length + 1)] := by
  intro s
  induction s with
  | nil =>
    intro x ia ib
    simp [buildOps]
  | cons y ys ih =>
    intro x ia ib
    have hrec := ih y (ia + 1) (ib + 1)
    simp only [List.map_cons] at hrec ⊢
    have hstep := buildOps_keep_equal x (Edit.keep y :: List.map Edit.keep ys) ia ib _ _ _ hrec
    rw [hstep, List.length_cons]
    have e1 : ia + 1 + ys.length + 1 = ia + (ys.length + 1) + 1 := by omega
    have e2 : ib + 1 + ys.length + 1 = ib + (ys.length + 1) + 1 := by omega
    rw [e1, e2]

theorem single_equal_spans (side : Side) (n v : Nat) (pm2 : List Nat) (raw : List Char) :
    sideSpans side [.equal (0, n) (0, n)] (v :: pm2) raw =
      [⟨.same, raw.drop v⟩] := by
  cases side <;> rfl

/-! The claims. -/

/-- Claim C1, counterexample: `compare_files` takes no document arguments
and reads the shared session state, so calls with the same (empty)
argument list return different results depending on prior
`update_file_content` calls. -/
theorem claim_C1_counterexample :
    (compare_files current_files).success = false ∧
    (compare_files
      (update_file_content 2 ['b'] (update_file_content 1 ['a'] current_files).2).2).success = true ∧
    compare_files current_files ≠
      compare_files
        (update_file_content 2 ['b'] (update_file_content 1 ['a'] current_files).2).2 := by
  refine ⟨rfl, rfl, ?_⟩
  decide

/-- Claim C1 (amended): the engine operations are pure functions of their
arguments, but the exposed compare operation reads the shared session
state: `compare_files` depends on exactly the two stored normalized texts,
so two sessions agreeing on those fields give identical results. -/
theorem claim_C1 (s t : Session)
    (h1 : s.file1.normalized = t.file1.normalized)
    (h2 : s.file2.normalized = t.file2.normalized) :
    compare_files s = compare_files t := by
  simp only [compare_files, h1, h2]

/-- Witness for C1: two sessions differing in paths and originals but
agreeing on the normalized texts compare identically. -/
theorem claim_C1_witness :
    compare_files ⟨⟨some "x", ['a'], ['c']⟩, ⟨none, ['b'], ['d']⟩⟩ =
      compare_files ⟨⟨none, [], ['c']⟩, ⟨some "y", [], ['d']⟩⟩ :=
  claim_C1 _ _ rfl rfl

/-- Claim C2, counterexample: a raw text beginning with a stripped
character is not reconstructed in full, because the first projected span
starts at the raw position of the first kept character
(spec section 4.3 computes each span start as `posMap[op.start]`). -/
theorem claim_C2_counterexample :
    concatTexts (compareNormalized ['.', 'a'] ['a']).1 ≠ ['.', 'a'] := by
  decide

/-- Claim C2 (amended): for a side whose normalized text is nonempty,
concatenating its projected span texts in order reproduces the raw text
from the raw position of its first kept character onward (hence the full
raw text exactly when the raw text does not begin with a stripped
character); a side with empty normalized text contributes no spans. -/
theorem claim_C2 (a b : List Char) :
    (normalize_text a ≠ [] →
      concatTexts (compareNormalized a b).1 = a.drop ((posMap a).headD 0)) ∧
    (normalize_text b ≠ [] →
      concatTexts (compareNormalized a b).2 = b.drop ((posMap b).headD 0)) :=
  ⟨coverage_left a b, coverage_right a b⟩

/-- Witness for C2 at a concrete pair of documents. -/
theorem claim_C2_witness :
    concatTexts (compareNormalized ['a', '.'] ['x']).1 =
      (['a', '.'] : List Char).drop ((posMap ['a', '.']).headD 0) ∧
    concatTexts (compareNormalized ['a', '.'] ['x']).2 =
      (['x'] : List Char).drop ((posMap ['x']).headD 0) :=
  ⟨(claim_C2 ['a', '.'] ['x']).1 (by decide),
   (claim_C2 ['a', '.'] ['x']).2 (by decide)⟩

/-- Claim C3: a failed load — `read_file` raising, an unsupported
extension, or a failing Word-document extraction — is reported with
`success = false` and an error message, and leaves the whole session
unchanged, so nothing from the failed load reaches the comparison
engine. -/
theorem claim_C3 (msg file_path : String) (i : Nat) (s : Session)
    (u g : List Nat → Option (List Char)) (name : String) (content : List Nat)
    (ext : String) (j : Nat) (e : String)
    (hx : pyLower ext ≠ ".txt") (hd : pyLower ext ≠ ".docx") :
    ((load_file_from_path (.err msg) file_path i s).1.success = false ∧
     (load_file_from_path (.err msg) file_path i s).1.error = some msg ∧
     (load_file_from_path (.err msg) file_path i s).2 = s) ∧
    ((load_file_from_content u g (.ok []) name content ext j s).1.success = false ∧
     (load_file_from_content u g (.ok []) name content ext j s).1.error =
        some ("不支持的文件格式: " ++ ext) ∧
     (load_file_from_content u g (.ok []) name content ext j s).2 = s) ∧
    ((load_file_from_content u g (.error e) name content ".docx" j s).1.success = false ∧
     (load_file_from_content u g (.error e) name content ".docx" j s).1.error = some e ∧
     (load_file_from_content u g (.error e) name content ".docx" j s).2 = s) := by
  refine ⟨⟨rfl, rfl, rfl⟩, ?_, ?_⟩
  · unfold load_file_from_content
    rw [if_neg hx, if_neg hd]
    exact ⟨rfl, rfl, rfl⟩
  · unfold load_file_from_content
    rw [if_neg (by decide : ¬pyLower ".docx" = ".txt"),
        if_pos (by decide : pyLower ".docx" = ".docx")]
    exact ⟨rfl, rfl, rfl⟩

/-- Witness for C3: a concrete failing read and a concrete unsupported
extension leave the initial session untouched. -/
theorem claim_C3_witness :
    (load_file_from_path (.err "boom") "d/f.txt" 1 current_files).2 = current_files ∧
    (load_file_from_content (fun _ => none) (fun _ => none) (.ok []) "n" [] ".pdf" 1
        current_files).1.success = false :=
  ⟨(claim_C3 "boom" "d/f.txt" 1 current_files (fun _ => none) (fun _ => none) "n" [] ".pdf"
      1 "bad" (by decide) (by decide)).1.2.2,
   (claim_C3 "boom" "d/f.txt" 1 current_files (fun _ => none) (fun _ => none) "n" [] ".pdf"
      1 "bad" (by decide) (by decide)).2.1.1⟩

/-- Claim C4, counterexample: after loading two punctuation-only
documents (both slots hold a path, an original text, and an empty
normalized text), `compare_files` reports `success = false`, treating the
loaded pair as not yet loaded. -/
theorem claim_C4_counterexample :
    (∀ c ∈ ['.'], isStripped c = true) ∧
    ((load_file_from_path (.ok ['.'] (normalize_text ['.'])) "b.txt" 2
        (load_file_from_path (.ok ['.'] (normalize_text ['.'])) "a.txt" 1
          current_files).2).2.file1.path = some "a.txt") ∧
    ((load_file_from_path (.ok ['.'] (normalize_text ['.'])) "b.txt" 2
        (load_file_from_path (.ok ['.'] (normalize_text ['.'])) "a.txt" 1
          current_files).2).2.file2.path = some "b.txt") ∧
    (compare_files
        (load_file_from_path (.ok ['.'] (normalize_text ['.'])) "b.txt" 2
          (load_file_from_path (.ok ['.'] (normalize_text ['.'])) "a.txt" 1
            current_files).2).2).success = false := by
  decide

/-- Claim C4 (amended): a document of stripped characters only normalizes
to the empty NormalizedText and empty PositionMap and is not an error of
the normalizer; however `compare_files` uses emptiness of the stored
normalized texts as its loaded-check, so comparing two loaded documents
whose normalized forms are both empty is reported as a failure
(`success = false`), not as a valid empty comparison. -/
theorem claim_C4 :
    (∀ (l : List Char), (∀ c ∈ l, isStripped c = true) →
      normalize_text l = [] ∧ posMap l = []) ∧
    (∀ s : Session, s.file1.normalized = [] → s.file2.normalized = [] →
      compare_files s =
        ⟨false, [], [], some "请先加载两个文件", "需要加载两个文件才能进行比对", [], []⟩) := by
  constructor
  · intro l h
    have hnt : normalize_text l = [] := by
      rw [normalize_text]
      rw [List.filter_eq_nil_iff]
      intro c hc
      simp [h c hc]
    refine ⟨hnt, ?_⟩
    have hlen := posMap_length l
    rw [hnt] at hlen
    exact List.length_eq_zero.mp hlen
  · intro s h1 h2
    simp [compare_files, h1, h2]

/-- Witness for C4 at a concrete stripped-only text and session. -/
theorem claim_C4_witness :
    normalize_text [' '] = [] ∧
    (compare_files ⟨⟨some "a", ['.'], []⟩, ⟨some "b", [','], []⟩⟩).success = false :=
  ⟨(claim_C4.1 [' '] (by decide)).1,
   by rw [claim_C4.2 ⟨⟨some "a", ['.'], []⟩, ⟨some "b", [','], []⟩⟩ rfl rfl]⟩

/-- Claim C5, counterexample: for a text with a stripped character before
a kept one, re-normalizing the normalized text yields the identity
position map, not the original one, so the two `normalize` results
differ as pairs. -/
theorem claim_C5_counterexample :
    Subtitle.normalize ((Subtitle.normalize ['.', 'a']).1) ≠
      Subtitle.normalize ['.', 'a'] := by
  decide

/-- Claim C5 (amended): normalization is idempotent on the text component:
re-normalizing an already-normalized text returns it unchanged and its
PositionMap is the identity map; the full result equals `normalize x`
itself only when the position map of `x` is already the identity. -/
theorem claim_C5 (x : List Char) :
    Subtitle.normalize (Subtitle.normalize x).1 =
      ((Subtitle.normalize x).1, List.range (Subtitle.normalize x).1.length) := by
  simp only [Subtitle.normalize]
  rw [normalize_text_idem]
  rw [posMap, posMapFrom_unstripped (normalize_text x) (mem_normalize_text x) 0,
      List.range_eq_range']

/-- Claim C6, counterexample: for the raw text ".a", aligned with itself,
the projected `Same` span carries only "a", not the full raw text, because
the projection starts at the raw position of the first kept character. -/
theorem claim_C6_counterexample :
    (compareNormalized ['.', 'a'] ['.', 'a']).1 ≠
      [⟨Status.same, ['.', 'a']⟩] := by
  decide

/-- Claim C6 (amended): for every text whose normalized form is nonempty,
aligning the normalized text with itself yields exactly one `Equal` op
covering the whole normalized range, and projecting yields exactly one
`Same` span per side whose text is the raw text from the raw position of
the first kept character onward (the full raw text when the raw text does
not begin with a stripped character); a text normalizing to empty yields
no ops and no spans. -/
theorem claim_C6 (x : List Char) (h : normalize_text x ≠ []) :
    align (normalize_text x) (normalize_text x) =
      [.equal (0, (normalize_text x).length) (0, (normalize_text x).length)] ∧
    compareNormalized x x =
      ([⟨.same, x.drop ((posMap x).headD 0)⟩], [⟨.same, x.drop ((posMap x).headD 0)⟩]) := by
  have hd := diffChars_self (normalize_text x)
  have hops : align (normalize_text x) (normalize_text x) =
      [.equal (0, (normalize_text x).length) (0, (normalize_text x).length)] := by
    cases hnx : normalize_text x with
    | nil => exact absurd hnx h
    | cons c cs =>
      rw [hnx] at hd
      rw [align, hd, buildOps_keeps cs c 0 0]
      simp
  refine ⟨hops, ?_⟩
  have hpm := posMap_ne_nil x h
  cases hpm2 : posMap x with
  | nil => exact absurd hpm2 hpm
  | cons v pm2 =>
    simp only [compareNormalized, compare_normalized_texts, project, align] at hops ⊢
    rw [hops, hpm2, single_equal_spans, single_equal_spans]
    simp [List.headD]

/-- Witness for C6 at a concrete document. -/
theorem claim_C6_witness :
    align (normalize_text ['.', 'a']) (normalize_text ['.', 'a']) =
      [.equal (0, 1) (0, 1)] ∧
    compareNormalized ['.', 'a'] ['.', 'a'] =
      ([⟨.same, ['a']⟩], [⟨.same, ['a']⟩]) := by
  have h := claim_C6 ['.', 'a'] (by decide)
  exact h

/-- Claim C7, counterexample: with several minimal alignments available
(inputs "ab" and "ba"), the deterministic greedy tie-break picks scripts
that are not mirror images of each other, so swapping the inputs does not
swap the output as the claim states. -/
theorem claim_C7_counterexample :
    align ['b', 'a'] ['a', 'b'] ≠
      (align ['a', 'b'] ['b', 'a']).map mirrorOp := by
  decide

/-- Claim C7 (amended): swapping the two inputs preserves the number of
kept units and swaps the total numbers of deleted and inserted units (the
alignment stays minimal in both directions), but the op sequences need not
be exact mirror images when several minimal alignments exist. -/
theorem claim_C7 (a b : List Char) :
    keepCount (diffChars b a) = keepCount (diffChars a b) ∧
    delCount (diffChars b a) = insCount (diffChars a b) ∧
    insCount (diffChars b a) = delCount (diffChars a b) := by
  obtain ⟨k1, d1, i1⟩ := counts_diff a b
  obtain ⟨k2, d2, i2⟩ := counts_diff b a
  have hc := lcsLen_comm a b
  exact ⟨by omega, by omega, by omega⟩

/-- Claim C8: `load_file` is definitionally the same operation as
`load_file_from_path` — same result dictionary, same session. -/
theorem claim_C8 (r : ReadOutcome) (p : String) (i : Nat) (s : Session) :
    load_file r p i s = load_file_from_path r p i s := rfl

/-- Claim C9: for index 1 or 2, `update_file_content` succeeds and changes
exactly the `normalized` field of the selected slot, leaving the slot
fields `path` and `original` and the entire other slot unchanged. -/
theorem claim_C9 (c : List Char) (s : Session) :
    update_file_content 1 c s =
      (⟨true, none, "内容已更新"⟩, { s with file1 := { s.file1 with normalized := c } }) ∧
    update_file_content 2 c s =
      (⟨true, none, "内容已更新"⟩, { s with file2 := { s.file2 with normalized := c } }) :=
  ⟨rfl, rfl⟩

/-- Claim C10: loading `.txt` content (extension in any letter case, index
1 or 2) always succeeds: the UTF-8 → GBK → Latin-1-ignore fallback chain is
total over arbitrary bytes. -/
theorem claim_C10 (u g : List Nat → Option (List Char)) (d : Except String (List Char))
    (name : String) (content : List Nat) (ext : String) (j : Nat) (s : Session)
    (hext : pyLower ext = ".txt") (hj : j = 1 ∨ j = 2) :
    (load_file_from_content u g d name content ext j s).1.success = true := by
  unfold load_file_from_content
  rw [if_pos hext]
  rcases hj with rfl | rfl <;> simp [setFile]

/-- Witness for C10: undecodable bytes with an upper-case extension. -/
theorem claim_C10_witness :
    (load_file_from_content (fun _ => none) (fun _ => none) (.ok []) "n" [255] ".TXT" 1
      current_files).1.success = true :=
  claim_C10 (fun _ => none) (fun _ => none) (.ok []) "n" [255] ".TXT" 1 current_files
    (by decide) (Or.inl rfl)

end Subtitle
